import Mathlib

/-!
Verification of the Buzen normalization-constant algorithm and its metrics
layer, as presented in the blog post
src/content/blog/2025-10-28-quantum-counterfeit-coins.md.

The Python snippets of the post are embedded over exact rational
arithmetic (ℚ): lists of floats become lists of rationals, in-place array
updates become List.set, and Python's negative indexing is modelled
explicitly where a call site can reach it.
-/

set_option maxHeartbeats 1000000

/-- One inner-loop step of buzen: the in-place update g[n] += x * g[n-1]. -/
def stepAt (x : ℚ) (g : List ℚ) (n : ℕ) : List ℚ :=
  g.set n (g.getD n 0 + x * g.getD (n - 1) 0)

/-- The inner loop of buzen for one queue of load x:
for n in range(1, N + 1): g[n] += x * g[n - 1], in increasing index order. -/
def buzenQueue (x : ℚ) (N : ℕ) (g : List ℚ) : List ℚ :=
  (List.range N).foldl (fun h k => stepAt x h (k + 1)) g

/-- buzen from the blog post:
g = [0.0] * (N + 1); g[0] = 1.0; then the inner loop for each x in X. -/
def buzen (X : List ℚ) (N : ℕ) : List ℚ :=
  X.foldl (fun g x => buzenQueue x N g) ((List.replicate (N + 1) (0 : ℚ)).set 0 1)

/-- Python-style list read: a negative index counts from the end of the list
(out-of-range reads default to 0; the call sites below never go out of range
on the inputs the claims quantify over). -/
def pyGetD (g : List ℚ) (i : ℤ) : ℚ :=
  if 0 ≤ i then g.getD i.toNat 0 else g.getD (g.length - (-i).toNat) 0

/-- prob_at_least from the blog post: N = len(g) - 1; 0 if k > N,
else X[i]^k * g[N - k] / g[N]. -/
def prob_at_least (g X : List ℚ) (i k : ℕ) : ℚ :=
  let N := g.length - 1
  if k > N then 0 else (X.getD i 0) ^ k * g.getD (N - k) 0 / g.getD N 0

/-- expected_queue_length from the blog post: accumulate x_power * g[N - k]
for k = 1..N, multiplying x_power by X[i] each step, and divide once by g[N]
at the end. The fold state is (total, x_power), starting at (0, X[i]). -/
def expected_queue_length (g X : List ℚ) (i : ℕ) : ℚ :=
  let N := g.length - 1
  let s := (List.range N).foldl
    (fun (s : ℚ × ℚ) k => (s.1 + s.2 * g.getD (N - (k + 1)) 0, s.2 * X.getD i 0))
    (0, X.getD i 0)
  s.1 / g.getD N 0

/-- throughput from the blog post: N = len(g) - 1; ratio = g[N - 1] / g[N];
one entry e_i * ratio per visit ratio. N - 1 is a Python index and is -1
when N = 0, so it is read with Python's negative-index semantics. -/
def throughput (g e : List ℚ) : List ℚ :=
  let N : ℤ := (g.length : ℤ) - 1
  let ratio := pyGetD g (N - 1) / pyGetD g N
  e.map fun ei => ei * ratio

/-- The normalization constant G(n) for the loads in X, as the head
convolution recurrence: G over an empty network is 1 at population 0 and 0
otherwise, and adding a queue of load x convolves with the geometric
sequence of x. This is the n-th coefficient of the product of the
geometric generating functions of the loads. -/
def Gm : List ℚ → ℕ → ℚ
  | [], 0 => 1
  | [], _ + 1 => 0
  | x :: xs, n => ∑ k ∈ Finset.range (n + 1), x ^ k * Gm xs (n - k)

/-- All length-M lists of non-negative integers summing to n: the M-tuples
(k_1, ..., k_M) with k_1 + ... + k_M = n, each listed exactly once. -/
def sumTuples : ℕ → ℕ → List (List ℕ)
  | 0, 0 => [[]]
  | 0, _ + 1 => []
  | M + 1, n =>
    (List.range (n + 1)).flatMap fun k => (sumTuples M (n - k)).map fun t => k :: t

/-- The brute-force normalization constant of the claims: the sum, over
every way of distributing n jobs among the M queues (all M-tuples of
non-negative integers summing to n), of the product X_1^(k_1) * ... *
X_M^(k_M). -/
def bruteG (X : List ℚ) (n : ℕ) : ℚ :=
  ((sumTuples X.length n).map fun t => (List.zipWith (fun x k => x ^ k) X t).prod).sum

/-- Modelled from the spec (double-buffered formulation): the fresh output
column for one queue. Entry n of the new column is old[n] + x * new[n - 1]:
g(n, m - 1) is read from the snapshot of the previous queue's column and
g(n - 1, m) from the already-built prefix of the new column (prev carries
new[n - 1]). -/
def dbCol (x : ℚ) : ℚ → List ℚ → List ℚ
  | _, [] => []
  | prev, b :: bs => (b + x * prev) :: dbCol x (b + x * prev) bs

/-- Modelled from the spec (double-buffered formulation): one queue's pass
allocating a fresh output array. Entry 0 is copied (g(0, m) = g(0, m - 1)),
the rest is dbCol. -/
def dbStep (x : ℚ) (g : List ℚ) : List ℚ :=
  match g with
  | [] => []
  | a :: rest => a :: dbCol x a rest

/-- Modelled from the spec (double-buffered formulation): fold dbStep over
the queues, starting from the same initial column as buzen. -/
def buzenDB (X : List ℚ) (N : ℕ) : List ℚ :=
  X.foldl (fun g x => dbStep x g) ((List.replicate (N + 1) (0 : ℚ)).set 0 1)

/-- Modelled from the spec: the two-dimensional recurrence
g(n, m) = g(n, m - 1) + X_m * g(n - 1, m) with base cases g(0, m) = 1 and
g(n, 0) = 0 for n > 0; m counts how many leading queues of X participate. -/
def g2 (X : List ℚ) : ℕ → ℕ → ℚ
  | 0, _ => 1
  | _ + 1, 0 => 0
  | n + 1, m + 1 => g2 X (n + 1) m + X.getD m 0 * g2 X n (m + 1)
termination_by n m => (n, m)

/-! ### Basic lemmas about the embedded definitions -/

theorem buzen_init (N : ℕ) :
    (List.replicate (N + 1) (0 : ℚ)).set 0 1 = 1 :: List.replicate N 0 := by
  rw [List.replicate_succ]; rfl

theorem getD_set_ne (g : List ℚ) (n m : ℕ) (a : ℚ) (h : n ≠ m) :
    (g.set n a).getD m 0 = g.getD m 0 := by
  simp [List.getD_eq_getElem?_getD, List.getElem?_set_ne h]

theorem getD_set_self (g : List ℚ) (n : ℕ) (a : ℚ) (h : n < g.length) :
    (g.set n a).getD n 0 = a := by
  simp [List.getD_eq_getElem?_getD, List.getElem?_set_self h]

theorem getD_replicate_zero (N n : ℕ) : (List.replicate N (0 : ℚ)).getD n 0 = 0 := by
  simp only [List.getD_eq_getElem?_getD, List.getElem?_replicate]
  split <;> rfl

theorem stepAt_length (x : ℚ) (g : List ℚ) (n : ℕ) :
    (stepAt x g n).length = g.length :=
  List.length_set g n _

theorem buzenQueue_zero (x : ℚ) (g : List ℚ) : buzenQueue x 0 g = g := rfl

theorem buzenQueue_succ (x : ℚ) (t : ℕ) (g : List ℚ) :
    buzenQueue x (t + 1) g = stepAt x (buzenQueue x t g) (t + 1) := by
  unfold buzenQueue
  rw [List.range_succ, List.foldl_append, List.foldl_cons, List.foldl_nil]

theorem buzenQueue_length (x : ℚ) (N : ℕ) (g : List ℚ) :
    (buzenQueue x N g).length = g.length := by
  induction N with
  | zero => rfl
  | succ t ih => rw [buzenQueue_succ, stepAt_length, ih]

theorem buzenQueue_getD_high (x : ℚ) (t : ℕ) (g : List ℚ) (n : ℕ) (h : t < n) :
    (buzenQueue x t g).getD n 0 = g.getD n 0 := by
  induction t with
  | zero => rfl
  | succ t ih =>
    rw [buzenQueue_succ, stepAt, getD_set_ne _ _ _ _ (by omega), ih (by omega)]

theorem buzenQueue_getD_low (x : ℚ) (t : ℕ) (g : List ℚ) (ht : t + 1 ≤ g.length) :
    ∀ n ≤ t, (buzenQueue x t g).getD n 0 =
      ∑ j ∈ Finset.range (n + 1), x ^ (n - j) * g.getD j 0 := by
  induction t with
  | zero =>
    intro n hn
    have hn0 : n = 0 := Nat.le_zero.mp hn
    subst hn0
    simp [buzenQueue_zero]
  | succ t ih =>
    intro n hn
    rw [buzenQueue_succ, stepAt]
    by_cases hcase : n = t + 1
    · subst hcase
      rw [getD_set_self _ _ _ (by rw [buzenQueue_length]; omega)]
      rw [buzenQueue_getD_high x t g (n := t + 1) (by omega)]
      rw [show t + 1 - 1 = t from rfl, ih (by omega) t le_rfl, Finset.mul_sum]
      conv_rhs => rw [Finset.sum_range_succ]
      have hterm : ∀ j ∈ Finset.range (t + 1),
          x * (x ^ (t - j) * g.getD j 0) = x ^ (t + 1 - j) * g.getD j 0 := by
        intro j hj
        have hj' : j ≤ t := by
          have := Finset.mem_range.mp hj; omega
        have he : t + 1 - j = (t - j) + 1 := by omega
        rw [he, pow_succ]
        ring
      rw [Finset.sum_congr rfl hterm, show t + 1 - (t + 1) = 0 from by omega,
        pow_zero, one_mul]
      exact add_comm _ _
    · have hne : t + 1 ≠ n := fun e => hcase e.symm
      rw [getD_set_ne _ _ _ _ hne, ih (by omega) n (by omega)]

theorem buzen_nil (N : ℕ) : buzen [] N = 1 :: List.replicate N 0 := by
  rw [buzen, List.foldl_nil, buzen_init]

theorem buzen_append_singleton (X : List ℚ) (x : ℚ) (N : ℕ) :
    buzen (X ++ [x]) N = buzenQueue x N (buzen X N) := by
  simp [buzen, List.foldl_append]

theorem buzen_length (X : List ℚ) (N : ℕ) : (buzen X N).length = N + 1 := by
  induction X using List.reverseRecOn with
  | nil => simp [buzen_nil]
  | append_singleton X x ih => rw [buzen_append_singleton, buzenQueue_length, ih]

/-! ### Lemmas about the normalization constant Gm -/

theorem Gm_cons (x : ℚ) (xs : List ℚ) (n : ℕ) :
    Gm (x :: xs) n = ∑ k ∈ Finset.range (n + 1), x ^ k * Gm xs (n - k) := rfl

theorem Gm_zero (X : List ℚ) : Gm X 0 = 1 := by
  induction X with
  | nil => rfl
  | cons x xs ih => rw [Gm_cons]; simp [ih]

theorem Gm_eq_coeff (X : List ℚ) (n : ℕ) :
    Gm X n =
      PowerSeries.coeff ℚ n (X.map fun x => PowerSeries.mk fun k => x ^ k).prod := by
  induction X generalizing n with
  | nil =>
    cases n <;> simp [Gm, PowerSeries.coeff_one]
  | cons x xs ih =>
    rw [List.map_cons, List.prod_cons, PowerSeries.coeff_mul,
      Finset.Nat.sum_antidiagonal_eq_sum_range_succ_mk, Gm_cons]
    refine Finset.sum_congr rfl fun k _ => ?_
    rw [PowerSeries.coeff_mk, ih]

theorem Gm_perm {X X' : List ℚ} (h : X.Perm X') (n : ℕ) : Gm X n = Gm X' n := by
  rw [Gm_eq_coeff, Gm_eq_coeff, (h.map _).prod_eq]

theorem Gm_snoc (X : List ℚ) (x : ℚ) (n : ℕ) :
    Gm (X ++ [x]) n = ∑ j ∈ Finset.range (n + 1), x ^ (n - j) * Gm X j := by
  rw [Gm_perm (List.perm_append_singleton x X) n, Gm_cons,
    ← Finset.sum_range_reflect]
  refine Finset.sum_congr rfl fun j hj => ?_
  have hj' : j ≤ n := by
    have := Finset.mem_range.mp hj; omega
  have h1 : n + 1 - 1 - j = n - j := by omega
  have h2 : n - (n - j) = j := by omega
  rw [h1, h2]

theorem buzen_getD (X : List ℚ) (N : ℕ) :
    ∀ n ≤ N, (buzen X N).getD n 0 = Gm X n := by
  induction X using List.reverseRecOn with
  | nil =>
    intro n _
    rw [buzen_nil]
    cases n with
    | zero => rfl
    | succ n => rw [List.getD_cons_succ, getD_replicate_zero]; rfl
  | append_singleton X x ih =>
    intro n hn
    rw [buzen_append_singleton,
      buzenQueue_getD_low x N (buzen X N) (by rw [buzen_length]) n hn, Gm_snoc]
    refine Finset.sum_congr rfl fun j hj => ?_
    have hj' : j ≤ N := by
      have := Finset.mem_range.mp hj; omega
    rw [ih j hj']

/-! ### The brute-force sum over tuples equals Gm -/

theorem list_range_map_sum (n : ℕ) (f : ℕ → ℚ) :
    ((List.range n).map f).sum = ∑ k ∈ Finset.range n, f k := by
  induction n with
  | zero => rfl
  | succ n ih =>
    rw [List.range_succ, List.map_append, List.sum_append, Finset.sum_range_succ, ih]
    simp

theorem sum_flatMap_rat {α : Type} (l : List α) (g : α → List ℚ) :
    (l.flatMap g).sum = (l.map fun a => (g a).sum).sum := by
  induction l with
  | nil => rfl
  | cons a l ih =>
    rw [List.flatMap_cons, List.sum_append, List.map_cons, List.sum_cons, ih]

theorem bruteG_eq_Gm (X : List ℚ) : ∀ n, bruteG X n = Gm X n := by
  induction X with
  | nil =>
    intro n
    cases n <;> simp [bruteG, sumTuples, Gm]
  | cons x xs ih =>
    intro n
    rw [bruteG]
    simp only [List.length_cons]
    rw [show sumTuples (xs.length + 1) n =
        (List.range (n + 1)).flatMap
          (fun k => (sumTuples xs.length (n - k)).map fun t => k :: t) from rfl]
    rw [List.map_flatMap, sum_flatMap_rat]
    simp only [List.map_map, Function.comp_def, List.zipWith_cons_cons, List.prod_cons,
      List.sum_map_mul_left]
    rw [list_range_map_sum, Gm_cons]
    refine Finset.sum_congr rfl fun k _ => ?_
    rw [← ih (n - k)]
    rfl

/-! ### The double-buffered formulation agrees with the in-place one -/

theorem dbCol_length (x : ℚ) (bs : List ℚ) :
    ∀ prev : ℚ, (dbCol x prev bs).length = bs.length := by
  induction bs with
  | nil => intro prev; rfl
  | cons b bs ih => intro prev; rw [dbCol]; simp [ih]

theorem dbStep_length (x : ℚ) (g : List ℚ) : (dbStep x g).length = g.length := by
  cases g with
  | nil => rfl
  | cons a rest => rw [dbStep]; simp [dbCol_length]

theorem dbCol_getD (x : ℚ) (bs : List ℚ) :
    ∀ (prev : ℚ) (n : ℕ), n < bs.length →
      (dbCol x prev bs).getD n 0 =
        (∑ j ∈ Finset.range (n + 1), x ^ (n - j) * bs.getD j 0) + x ^ (n + 1) * prev := by
  induction bs with
  | nil => intro prev n h; simp at h
  | cons b bs ih =>
    intro prev n h
    cases n with
    | zero =>
      simp only [dbCol, List.getD_cons_zero]
      norm_num
    | succ n =>
      rw [dbCol, List.getD_cons_succ, ih (b + x * prev) n (by simpa using h)]
      conv_rhs => rw [Finset.sum_range_succ']
      simp only [List.getD_cons_succ, List.getD_cons_zero, Nat.sub_zero]
      have he : ∀ j : ℕ, n + 1 - (j + 1) = n - j := fun j => by omega
      simp only [he]
      ring


theorem dbStep_getD (x : ℚ) (g : List ℚ) (n : ℕ) (h : n < g.length) :
    (dbStep x g).getD n 0 = ∑ j ∈ Finset.range (n + 1), x ^ (n - j) * g.getD j 0 := by
  cases g with
  | nil => simp at h
  | cons a rest =>
    cases n with
    | zero =>
      simp [dbStep, Finset.sum_range_one]
    | succ n =>
      rw [dbStep, List.getD_cons_succ, dbCol_getD x rest a n (by simpa using h)]
      conv_rhs => rw [Finset.sum_range_succ']
      simp only [List.getD_cons_succ, List.getD_cons_zero, Nat.sub_zero]
      have he : ∀ j : ℕ, n + 1 - (j + 1) = n - j := fun j => by omega
      simp only [he]

theorem dbStep_eq_buzenQueue (x : ℚ) (N : ℕ) (g : List ℚ) (h : g.length = N + 1) :
    dbStep x g = buzenQueue x N g := by
  apply List.ext_getElem (by rw [dbStep_length, buzenQueue_length])
  intro n h1 h2
  have hn : n < g.length := by rwa [dbStep_length] at h1
  rw [← List.getD_eq_getElem _ 0 h1, ← List.getD_eq_getElem _ 0 h2,
    dbStep_getD x g n hn, buzenQueue_getD_low x N g (by omega) n (by omega)]

theorem foldl_db_eq_foldl_buzen (X : List ℚ) :
    ∀ (g : List ℚ) (N : ℕ), g.length = N + 1 →
      X.foldl (fun g x => dbStep x g) g = X.foldl (fun g x => buzenQueue x N g) g := by
  induction X with
  | nil => intro g N _; rfl
  | cons x X ih =>
    intro g N h
    rw [List.foldl_cons, List.foldl_cons, dbStep_eq_buzenQueue x N g h,
      ih (buzenQueue x N g) N (by rw [buzenQueue_length, h])]

theorem buzenDB_eq_buzen (X : List ℚ) (N : ℕ) : buzenDB X N = buzen X N := by
  rw [buzenDB, buzen]
  exact foldl_db_eq_foldl_buzen X _ N (by rw [buzen_init]; simp)

/-! ### The two-dimensional recurrence g2 agrees with Gm on prefixes -/

theorem Gm_snoc_succ (X : List ℚ) (x : ℚ) (n : ℕ) :
    Gm (X ++ [x]) (n + 1) = Gm X (n + 1) + x * Gm (X ++ [x]) n := by
  rw [Gm_snoc, Gm_snoc, Finset.sum_range_succ,
    show n + 1 - (n + 1) = 0 from by omega, pow_zero, one_mul, Finset.mul_sum]
  have hterm : ∀ j ∈ Finset.range (n + 1),
      x * (x ^ (n - j) * Gm X j) = x ^ (n + 1 - j) * Gm X j := by
    intro j hj
    have hj' : j ≤ n := by
      have := Finset.mem_range.mp hj; omega
    rw [show n + 1 - j = (n - j) + 1 from by omega, pow_succ]
    ring
  rw [Finset.sum_congr rfl hterm]
  exact add_comm _ _

theorem take_succ_getD (X : List ℚ) (m : ℕ) (hm : m < X.length) :
    X.take (m + 1) = X.take m ++ [X.getD m 0] := by
  rw [List.take_succ, List.getElem?_eq_getElem hm, List.getD_eq_getElem _ 0 hm]
  rfl

theorem g2_eq_Gm_take (X : List ℚ) : ∀ n m, g2 X n m = Gm (X.take m) n := by
  intro n
  induction n with
  | zero => intro m; simp [g2, Gm_zero]
  | succ n ihn =>
    intro m
    induction m with
    | zero => simp [g2, Gm]
    | succ m ihm =>
      simp only [g2]
      by_cases hm : m < X.length
      · rw [ihm, ihn (m + 1), take_succ_getD X m hm, Gm_snoc_succ]
      · have hge : X.length ≤ m := by omega
        have htake1 : X.take (m + 1) = X := List.take_of_length_le (by omega)
        have htake2 : X.take m = X := List.take_of_length_le hge
        have hgd : X.getD m 0 = 0 := List.getD_eq_default _ _ hge
        rw [ihm, ihn (m + 1), htake1, htake2, hgd]
        ring

/-! ### Non-negativity and the tail bound used for probabilities -/

theorem Gm_nonneg (X : List ℚ) (hX : ∀ x ∈ X, 0 ≤ x) : ∀ n, 0 ≤ Gm X n := by
  induction X with
  | nil => intro n; cases n <;> simp [Gm]
  | cons x xs ih =>
    intro n
    rw [Gm_cons]
    refine Finset.sum_nonneg fun k _ => mul_nonneg ?_ ?_
    · exact pow_nonneg (hX x (List.mem_cons_self x xs)) k
    · exact ih (fun y hy => hX y (List.mem_cons_of_mem x hy)) (n - k)

theorem perm_getElem_cons_eraseIdx (X : List ℚ) :
    ∀ (i : ℕ) (hi : i < X.length), X.Perm (X[i] :: X.eraseIdx i) := by
  induction X with
  | nil => intro i hi; simp at hi
  | cons a X ih =>
    intro i hi
    cases i with
    | zero => exact List.Perm.refl _
    | succ i =>
      have hi' : i < X.length := by simpa using hi
      have h1 : (a :: X).Perm (a :: (X[i] :: X.eraseIdx i)) := (ih i hi').cons a
      refine h1.trans ?_
      simpa using List.Perm.swap (X[i]) a (X.eraseIdx i)

theorem Gm_erase (X : List ℚ) (i : ℕ) (hi : i < X.length) (n : ℕ) :
    Gm X n =
      ∑ j ∈ Finset.range (n + 1), (X.getD i 0) ^ j * Gm (X.eraseIdx i) (n - j) := by
  have hperm : X.Perm (X.getD i 0 :: X.eraseIdx i) := by
    rw [List.getD_eq_getElem _ 0 hi]
    exact perm_getElem_cons_eraseIdx X i hi
  rw [Gm_perm hperm n, Gm_cons]

theorem Gm_tail_bound (X : List ℚ) (hX : ∀ x ∈ X, 0 ≤ x) (i : ℕ) (hi : i < X.length)
    (k N : ℕ) (hk : k ≤ N) :
    (X.getD i 0) ^ k * Gm X (N - k) ≤ Gm X N := by
  have hx : (0 : ℚ) ≤ X.getD i 0 := by
    rw [List.getD_eq_getElem _ 0 hi]
    exact hX _ (List.getElem_mem hi)
  have hX' : ∀ y ∈ X.eraseIdx i, 0 ≤ y :=
    fun y hy => hX y ((List.eraseIdx_sublist X i).subset hy)
  calc (X.getD i 0) ^ k * Gm X (N - k)
      = ∑ j ∈ Finset.range (N - k + 1),
          (X.getD i 0) ^ (k + j) * Gm (X.eraseIdx i) (N - (k + j)) := by
        rw [Gm_erase X i hi (N - k), Finset.mul_sum]
        refine Finset.sum_congr rfl fun j _ => ?_
        rw [← mul_assoc, ← pow_add, Nat.sub_sub]
    _ = ∑ m ∈ Finset.Ico k (N + 1), (X.getD i 0) ^ m * Gm (X.eraseIdx i) (N - m) := by
        rw [Finset.sum_Ico_eq_sum_range, show N + 1 - k = N - k + 1 from by omega]
    _ ≤ ∑ m ∈ Finset.range (N + 1), (X.getD i 0) ^ m * Gm (X.eraseIdx i) (N - m) := by
        refine Finset.sum_le_sum_of_subset_of_nonneg ?_ fun m _ _ => ?_
        · intro m hm
          rw [Finset.mem_range]
          have := Finset.mem_Ico.mp hm
          omega
        · exact mul_nonneg (pow_nonneg hx m) (Gm_nonneg _ hX' _)
    _ = Gm X N := (Gm_erase X i hi N).symm

/-! ### A zero-load queue is the identity of the per-queue pass -/

theorem set_getD_eq_self (g : List ℚ) : ∀ n, g.set n (g.getD n 0) = g := by
  induction g with
  | nil => intro n; rfl
  | cons a g ih =>
    intro n
    cases n with
    | zero => rfl
    | succ n => rw [List.set_cons_succ, List.getD_cons_succ, ih]

theorem buzenQueue_zero_load (N : ℕ) (g : List ℚ) : buzenQueue 0 N g = g := by
  induction N with
  | zero => rfl
  | succ t ih =>
    rw [buzenQueue_succ, ih, stepAt, zero_mul, add_zero, set_getD_eq_self]

/-! ### Closed form of the expected_queue_length accumulator -/

theorem eql_foldl (g : List ℚ) (xi : ℚ) (N : ℕ) :
    ∀ t, (List.range t).foldl
        (fun (s : ℚ × ℚ) k => (s.1 + s.2 * g.getD (N - (k + 1)) 0, s.2 * xi))
        (0, xi) =
      (∑ k ∈ Finset.range t, xi ^ (k + 1) * g.getD (N - (k + 1)) 0, xi ^ (t + 1)) := by
  intro t
  induction t with
  | zero => simp
  | succ t ih =>
    rw [List.range_succ, List.foldl_append, List.foldl_cons, List.foldl_nil, ih]
    rw [Finset.sum_range_succ, pow_succ xi (t + 1)]

theorem expected_queue_length_eq (g X : List ℚ) (i : ℕ) :
    expected_queue_length g X i =
      (∑ k ∈ Finset.range (g.length - 1),
        (X.getD i 0) ^ (k + 1) * g.getD (g.length - 1 - (k + 1)) 0) /
      g.getD (g.length - 1) 0 := by
  rw [expected_queue_length, eql_foldl]

theorem pyGetD_coe (g : List ℚ) (n : ℕ) : pyGetD g (n : ℤ) = g.getD n 0 := by
  rw [pyGetD, if_pos (Int.natCast_nonneg n)]
  simp

/-! ### The claims -/

/-- Claim C1: for every sequence X of M ≥ 1 non-negative loads and every
N ≥ 0, buzen X N has length N + 1 and, for every n ≤ N, its entry n equals
the sum over all M-tuples of non-negative integers summing to n of the
product of each load raised to its tuple entry (bruteG). -/
theorem claim_buzen_enumeration (X : List ℚ) (N : ℕ) (hM : 1 ≤ X.length)
    (hX : ∀ x ∈ X, 0 ≤ x) :
    (buzen X N).length = N + 1 ∧ ∀ n ≤ N, (buzen X N).getD n 0 = bruteG X n :=
  ⟨buzen_length X N, fun n hn => by rw [buzen_getD X N n hn, bruteG_eq_Gm]⟩

/-- Witness for claim C1 at X = [2, 3], N = 3, n = 3. -/
theorem claim_buzen_enumeration_witness :
    (buzen [2, 3] 3).length = 4 ∧ (buzen [2, 3] 3).getD 3 0 = bruteG [2, 3] 3 :=
  ⟨(claim_buzen_enumeration [2, 3] 3 (by norm_num) (by norm_num)).1,
    (claim_buzen_enumeration [2, 3] 3 (by norm_num) (by norm_num)).2 3 (by norm_num)⟩

/-- Claim C2: the in-place single-array buzen equals the double-buffered
formulation (fresh output array per queue), and its entries realize the
two-dimensional recurrence g(n, m) = g(n, m-1) + X_m * g(n-1, m) with base
cases g(0, m) = 1 and g(n, 0) = 0 for n > 0, at m = M. -/
theorem claim_inplace_eq_double_buffered (X : List ℚ) (N : ℕ) :
    buzen X N = buzenDB X N ∧
    ∀ n ≤ N, (buzen X N).getD n 0 = g2 X n X.length := by
  refine ⟨(buzenDB_eq_buzen X N).symm, fun n hn => ?_⟩
  rw [buzen_getD X N n hn, g2_eq_Gm_take, List.take_length]

/-- Witness for claim C2 at X = [2, 3], N = 3, n = 3. -/
theorem claim_inplace_eq_double_buffered_witness :
    buzen [2, 3] 3 = buzenDB [2, 3] 3 ∧ (buzen [2, 3] 3).getD 3 0 = g2 [2, 3] 3 2 :=
  ⟨(claim_inplace_eq_double_buffered [2, 3] 3).1,
    (claim_inplace_eq_double_buffered [2, 3] 3).2 3 (by norm_num)⟩

/-- Counterexample to claim C3: for X = [] and N = 5 the buzen code does not
fail at all - it silently returns the array [1, 0, 0, 0, 0, 0]. -/
theorem claim_validation_counterexample :
    buzen [] 5 = [1, 0, 0, 0, 0, 0] := by
  norm_num [buzen, List.replicate]

/-- Claim C3 (amended): buzen performs no input validation: for every X and
every N it returns an array of length N + 1 (never a failure), and a
negative load is folded into the recurrence unchanged rather than rejected
or clamped. -/
theorem claim_no_validation_total :
    (∀ (X : List ℚ) (N : ℕ), (buzen X N).length = N + 1) ∧
    buzen [-2] 3 = [1, -2, 4, -8] := by
  refine ⟨buzen_length, ?_⟩
  norm_num [buzen, buzenQueue, stepAt, List.range_succ, List.replicate]

/-- Counterexample to claim C4: on the completed table for N = 0 (for
instance buzen [5] 0 = [1]) with visit ratio 2, throughput returns [2],
not [0]: the code reads g[N - 1] which at N = 0 is Python's g[-1] = g[0],
so each entry is e_i * g[0] / g[0] = e_i. -/
theorem claim_throughput_n0_counterexample :
    buzen [5] 0 = [1] ∧ throughput [1] [2] = [2] ∧ throughput [1] [2] ≠ [0] := by
  refine ⟨?_, ?_, ?_⟩
  · norm_num [buzen, buzenQueue, List.replicate]
  · norm_num [throughput, pyGetD]
  · norm_num [throughput, pyGetD]

/-- Claim C4 (amended): throughput returns one entry per visit ratio; for
N ≥ 1 entry i equals e_i * g[N-1] / g[N]; for N = 0 the code reads
g[-1] = g[0], so each entry equals e_i * (g[0] / g[0]), not 0. -/
theorem claim_throughput_entries (g e : List ℚ) (N : ℕ) (hg : g.length = N + 1) :
    (throughput g e).length = e.length ∧
    (1 ≤ N →
      throughput g e = e.map fun ei => ei * (g.getD (N - 1) 0 / g.getD N 0)) ∧
    (N = 0 →
      throughput g e = e.map fun ei => ei * (g.getD 0 0 / g.getD 0 0)) := by
  refine ⟨by simp [throughput], fun hN => ?_, fun hN0 => ?_⟩
  · simp only [throughput]
    have hA : ((g.length : ℤ) - 1 - 1) = ((N - 1 : ℕ) : ℤ) := by rw [hg]; omega
    have hB : ((g.length : ℤ) - 1) = ((N : ℕ) : ℤ) := by rw [hg]; omega
    rw [hA, hB, pyGetD_coe, pyGetD_coe]
  · subst hN0
    simp only [throughput]
    have hA : ((g.length : ℤ) - 1 - 1) = -1 := by rw [hg]; norm_num
    have hB : ((g.length : ℤ) - 1) = ((0 : ℕ) : ℤ) := by rw [hg]; norm_num
    have hC : pyGetD g (-1) = g.getD 0 0 := by
      rw [pyGetD, if_neg (by norm_num), hg]
      norm_num
    rw [hA, hB, hC, pyGetD_coe]

/-- Witness for claim C4 (amended) at g = [1, 5, 19, 65] (N = 3) and at
g = [1] (N = 0). -/
theorem claim_throughput_entries_witness :
    (throughput [1, 5, 19, 65] [2]).length = 1 ∧
    throughput [1] [2] =
      [2].map fun ei => ei * (([1] : List ℚ).getD 0 0 / ([1] : List ℚ).getD 0 0) :=
  ⟨(claim_throughput_entries [1, 5, 19, 65] [2] 3 (by norm_num)).1,
    (claim_throughput_entries [1] [2] 0 (by norm_num)).2.2 rfl⟩

/-- Claim C5: for a completed table g of length N + 1 with g[N] ≠ 0,
prob_at_least returns X_i^k * g[N-k] / g[N] for k ≤ N, returns 0 for
k > N, and returns 1 at k = 0. -/
theorem claim_prob_at_least_formula (g X : List ℚ) (i N : ℕ)
    (hg : g.length = N + 1) (hN : g.getD N 0 ≠ 0) :
    (∀ k ≤ N, prob_at_least g X i k =
      (X.getD i 0) ^ k * g.getD (N - k) 0 / g.getD N 0) ∧
    (∀ k, N < k → prob_at_least g X i k = 0) ∧
    prob_at_least g X i 0 = 1 := by
  have hlen : g.length - 1 = N := by omega
  refine ⟨fun k hk => ?_, fun k hk => ?_, ?_⟩
  · simp only [prob_at_least, hlen]
    rw [if_neg (by omega)]
  · simp only [prob_at_least, hlen]
    rw [if_pos (by omega)]
  · simp only [prob_at_least, hlen]
    rw [if_neg (by omega), pow_zero, one_mul, Nat.sub_zero, div_self hN]

/-- Witness for claim C5 at g = [1, 5, 19, 65], X = [2, 3], i = 1, k = 1:
the tail probability is 3 * g[2] / g[3], and it is 1 at k = 0. -/
theorem claim_prob_at_least_formula_witness :
    prob_at_least [1, 5, 19, 65] [2, 3] 1 1 =
      (([2, 3] : List ℚ).getD 1 0) ^ 1 * (([1, 5, 19, 65] : List ℚ).getD 2 0) /
        (([1, 5, 19, 65] : List ℚ).getD 3 0) ∧
    prob_at_least [1, 5, 19, 65] [2, 3] 1 0 = 1 :=
  ⟨(claim_prob_at_least_formula [1, 5, 19, 65] [2, 3] 1 3 (by norm_num)
      (by norm_num)).1 1 (by norm_num),
    (claim_prob_at_least_formula [1, 5, 19, 65] [2, 3] 1 3 (by norm_num)
      (by norm_num)).2.2⟩

/-- Claim C6: for a completed table g of length N + 1 with g[N] ≠ 0, the
optimized expected_queue_length (one division at the end) equals the
reference sum over k = 1..N of prob_at_least, in exact arithmetic. -/
theorem claim_expected_length_refinement (g X : List ℚ) (i N : ℕ)
    (hg : g.length = N + 1) (hN : g.getD N 0 ≠ 0) :
    expected_queue_length g X i = ∑ k ∈ Finset.Icc 1 N, prob_at_least g X i k := by
  have hlen : g.length - 1 = N := by omega
  rw [expected_queue_length_eq, hlen]
  rw [show Finset.Icc 1 N = Finset.Ico 1 (N + 1) from (Nat.Ico_succ_right 1 N).symm,
    Finset.sum_Ico_eq_sum_range, show N + 1 - 1 = N from rfl, Finset.sum_div]
  refine Finset.sum_congr rfl fun k hk => ?_
  have hk' : k < N := Finset.mem_range.mp hk
  simp only [prob_at_least, hlen]
  rw [if_neg (by omega), show 1 + k = k + 1 from by omega]

/-- Witness for claim C6 at g = [1, 5, 19, 65], X = [2, 3], i = 1, N = 3. -/
theorem claim_expected_length_refinement_witness :
    expected_queue_length [1, 5, 19, 65] [2, 3] 1 =
      ∑ k ∈ Finset.Icc 1 3, prob_at_least [1, 5, 19, 65] [2, 3] 1 k :=
  claim_expected_length_refinement [1, 5, 19, 65] [2, 3] 1 3 (by norm_num)
    (by norm_num)

/-- Claim C7: for valid input (M ≥ 1 non-negative loads) and any
permutation X' of X, buzen X' N equals buzen X N entry by entry. -/
theorem claim_permutation_invariance (X X' : List ℚ) (N : ℕ) (hperm : X.Perm X')
    (hM : 1 ≤ X.length) (hX : ∀ x ∈ X, 0 ≤ x) :
    buzen X' N = buzen X N := by
  apply List.ext_getElem (by rw [buzen_length, buzen_length])
  intro n h1 h2
  have hn : n ≤ N := by rw [buzen_length] at h1; omega
  rw [← List.getD_eq_getElem _ 0 h1, ← List.getD_eq_getElem _ 0 h2,
    buzen_getD X' N n hn, buzen_getD X N n hn, Gm_perm hperm.symm n]

/-- Witness for claim C7 at X = [2, 3], X' = [3, 2], N = 4. -/
theorem claim_permutation_invariance_witness :
    buzen [3, 2] 4 = buzen [2, 3] 4 :=
  claim_permutation_invariance [2, 3] [3, 2] 4 (List.Perm.swap 3 2 [])
    (by norm_num) (by norm_num)

/-- Claim C8: for a network with non-negative loads and table
g = buzen X N with g[N] ≠ 0, every queue index i of the network and every
k, the value of prob_at_least lies in [0, 1]. -/
theorem claim_prob_in_unit_interval (X : List ℚ) (N i k : ℕ)
    (hX : ∀ x ∈ X, 0 ≤ x) (hi : i < X.length)
    (hN : (buzen X N).getD N 0 ≠ 0) :
    0 ≤ prob_at_least (buzen X N) X i k ∧
      prob_at_least (buzen X N) X i k ≤ 1 := by
  have hlen : (buzen X N).length - 1 = N := by rw [buzen_length]; omega
  have hGN : (buzen X N).getD N 0 = Gm X N := buzen_getD X N N le_rfl
  have hGpos : 0 < Gm X N := by
    rcases lt_or_eq_of_le (Gm_nonneg X hX N) with h | h
    · exact h
    · exact absurd (hGN.trans h.symm) hN
  have hx : (0 : ℚ) ≤ X.getD i 0 := by
    rw [List.getD_eq_getElem _ 0 hi]
    exact hX _ (List.getElem_mem hi)
  by_cases hk : N < k
  · constructor <;> simp only [prob_at_least, hlen] <;> rw [if_pos (by omega)]
    · norm_num
  · have hform : prob_at_least (buzen X N) X i k =
        (X.getD i 0) ^ k * Gm X (N - k) / Gm X N := by
      simp only [prob_at_least, hlen]
      rw [if_neg (by omega), buzen_getD X N (N - k) (by omega), hGN]
    rw [hform]
    constructor
    · exact div_nonneg (mul_nonneg (pow_nonneg hx k) (Gm_nonneg X hX _)) hGpos.le
    · rw [div_le_one hGpos]
      exact Gm_tail_bound X hX i hi k N (by omega)

/-- Witness for claim C8 at X = [2, 3], N = 3, i = 1, k = 1. -/
theorem claim_prob_in_unit_interval_witness :
    0 ≤ prob_at_least (buzen [2, 3] 3) [2, 3] 1 1 ∧
      prob_at_least (buzen [2, 3] 3) [2, 3] 1 1 ≤ 1 :=
  claim_prob_in_unit_interval [2, 3] 3 1 1 (by norm_num) (by norm_num)
    (by norm_num [buzen, buzenQueue, stepAt, List.range_succ, List.replicate])

/-- Claim C9: for valid input (non-negative loads), the first entry of the
buzen array is 1 after initialization and after processing each queue:
for every decomposition X = P ++ S, the table built from the prefix P has
entry 0 equal to 1 (P = [] is the initialized array, P = X the result). -/
theorem claim_head_entry_one (X : List ℚ) (N : ℕ) (hX : ∀ x ∈ X, 0 ≤ x) :
    ∀ P S : List ℚ, X = P ++ S → (buzen P N).getD 0 0 = 1 := by
  intro P S _
  rw [buzen_getD P N 0 (Nat.zero_le N), Gm_zero]

/-- Witness for claim C9 at X = [2, 3], N = 3, after the first queue. -/
theorem claim_head_entry_one_witness :
    (buzen [2] 3).getD 0 0 = 1 :=
  claim_head_entry_one [2, 3] 3 (by norm_num) [2] [3] rfl

/-- Claim C10: appending a queue with load exactly 0 leaves the buzen
array unchanged: the zero-load pass is the identity. -/
theorem claim_zero_load_identity (X : List ℚ) (N : ℕ) :
    buzen (X ++ [0]) N = buzen X N := by
  rw [buzen_append_singleton, buzenQueue_zero_load]
